import Mathlib

/-!
# ndhist: `Histogram.cxx`

A shallow embedding of `src/src/Histogram.cxx` and theorems about it.

Conventions of the embedding.

* C++ `int` is a 32-bit two's-complement integer.  Values are carried in `Int` and every
  `int` operation of the source is followed by `wrap_int`.  (Signed overflow is undefined in
  C++; the wrap-around of the usual targets is what is modelled.)
* `hsize_t` and `size_t` are unsigned 64-bit integers carried in `Nat`, reduced by `wrap_u64`.
* C++ `double` is the type `Double` below: the finite values are rationals, and there are the
  two infinities and NaN.  Comparisons are the IEEE ones (every comparison with NaN is false).
  Addition is exact on finite values (no rounding).
* A C++ exception is a value of `Exn`.  A constructor that throws returns `Except.error`;
  a member function that throws returns the state it leaves behind together with the exception.
* Where aliasing matters (the copy constructor), objects lie in a `Memory`: an object holds
  the address of its chain and of the storage of its value vector, and allocations are fresh.
* `Histogram.hh` and `Binners.hh`/`Binners.cxx` are not part of the sources.  The value of the
  flag `hist::eat_nan` is a parameter; `LinBinner` is modelled from the specification.
-/

namespace NDHist

/-! ## Machine numbers -/

/-- Reduction of an integer to the range of a C++ `int` (32 bits, two's complement). -/
def wrap_int (z : Int) : Int := (z + 2147483648) % 4294967296 - 2147483648

/-- Reduction of an integer to the range of `hsize_t` / `size_t` (unsigned, 64 bits). -/
def wrap_u64 (z : Int) : Nat := (z % 18446744073709551616).toNat

/-- The values of a C++ `double`. -/
inductive Double where
  | finite (q : ℚ)
  | pos_inf
  | neg_inf
  | nan
  deriving DecidableEq

namespace Double

instance : Zero Double := ⟨finite 0⟩

/-- The test `std::isfinite`. -/
def isFinite : Double → Bool
  | finite _ => true
  | _ => false

/-- The comparison `a < b` of two doubles. -/
def lt : Double → Double → Bool
  | finite a, finite b => decide (a < b)
  | finite _, pos_inf => true
  | neg_inf, finite _ => true
  | neg_inf, pos_inf => true
  | _, _ => false

/-- The comparison `a <= b` of two doubles. -/
def le : Double → Double → Bool
  | finite a, finite b => decide (a ≤ b)
  | finite _, pos_inf => true
  | neg_inf, finite _ => true
  | neg_inf, pos_inf => true
  | pos_inf, pos_inf => true
  | neg_inf, neg_inf => true
  | _, _ => false

/-- The comparison `a > b` of two doubles. -/
def gt (a b : Double) : Bool := lt b a

/-- The comparison `a >= b` of two doubles. -/
def ge (a b : Double) : Bool := le b a

/-- The sum `a + b` of two doubles, exact on finite values. -/
def add : Double → Double → Double
  | finite a, finite b => finite (a + b)
  | nan, _ => nan
  | _, nan => nan
  | pos_inf, neg_inf => nan
  | neg_inf, pos_inf => nan
  | pos_inf, _ => pos_inf
  | _, pos_inf => pos_inf
  | neg_inf, _ => neg_inf
  | _, neg_inf => neg_inf

instance : Add Double := ⟨add⟩

end Double

/-! ## Exceptions -/

/-- The C++ exceptions that the code raises, and the failure of an `assert`. -/
inductive Exn where
  | logic_error (what : String)
  | length_error
  | range_error
  | out_of_range
  | assertion_failed
  deriving DecidableEq

/-! ## Axis -/

/-- The aggregate `Axis` of `Histogram.hh`, its fields in the order in which the
one-dimensional constructor (line 12) initialises them. -/
structure Axis where
  name : String
  n_bins : Int
  low : Double
  high : Double
  units : String
  deriving DecidableEq

/-- The loop of `Histogram::check_dimensions` (lines 189-202).  `names` is the local
`std::set<std::string> names`; the loop body reads it and never inserts into it. -/
def check_dimensions_loop (names : List String) : List Axis → Except Exn Unit
  | [] => .ok ()
  | a :: rest =>
    if a.name.length == 0 then
      .error (.logic_error "Histogram: unnamed axis")
    else if names.count a.name != 0 then
      .error (.logic_error ("Histogram: axis name " ++ a.name ++ " was used twice"))
    else if a.low.gt a.high then
      .error (.logic_error ("Histogram: axis " ++ a.name ++ " has high bound below low bound"))
    else
      check_dimensions_loop names rest

/-- The function `Histogram::check_dimensions` (lines 183-203). -/
def check_dimensions (axes : List Axis) : Except Exn Unit :=
  if axes.length == 0 then
    .error (.logic_error "Histogram: tried to initialize with no dimensions")
  else
    check_dimensions_loop [] axes

/-! ## The linear binner (not part of the sources) -/

/-- Modelled from the spec: the third case of the per-axis mapping (section 4.2),
`1 + floor((x - low) / (high - low) * n_bins)` clamped into `[1, n_bins]`.  The case is reached
with a bound that is not finite only when `low` is minus infinity or NaN or `high` is plus
infinity or NaN; the quotient is then zero or NaN, and the clamp of `1 + 0` is taken. -/
def linear_bin (n_bins : Int) (low high x : Double) : Int :=
  match x, low, high with
  | .finite q, .finite l, .finite h => max 1 (min n_bins (1 + ⌊(q - l) / (h - l) * n_bins⌋))
  | _, _, _ => max 1 (min n_bins (1 + 0))

/-- Modelled from the spec: the per-axis mapping of the linear strategy (section 4.2), the body
of `LinBinner::get_bin` for one coordinate, which is not part of the sources.  A coordinate
that is not finite or lies below `low` goes to bin 0, a coordinate at or above `high` goes to
bin `n_bins + 1`, every other coordinate goes to the clamped linear bin. -/
def axis_bin (n_bins : Int) (low high x : Double) : Int :=
  if !x.isFinite || x.lt low then 0
  else if x.ge high then n_bins + 1
  else linear_bin n_bins low high x

/-- Modelled from the spec: a node of the binner chain (section 3), the class `LinBinner` of
`Binners.hh`, which is not part of the sources.  A node holds the parameters that its
constructor receives in `Histogram::init` and the rest of the chain. -/
inductive LinBinner where
  | mk (name : String) (n_bins : Int) (low high : Double) (rest : Option LinBinner)

namespace LinBinner

/-- Modelled from the spec: `LinBinner::add_dimension`, which is not part of the sources.  The
new node goes to the end of the chain, so that the chain runs from the node that
`Histogram::init` creates first to the node it adds last. -/
def add_dimension : LinBinner → LinBinner → LinBinner
  | mk nm n l h none, d => mk nm n l h (some d)
  | mk nm n l h (some s), d => mk nm n l h (some (add_dimension s d))

/-- Modelled from the spec: the chain-level lookup (section 4.2) on coordinates listed from the
last axis to the first.  The head node takes the first of them as the least significant digit
and the rest of the chain resolves the others; a number of coordinates different from the
number of nodes is a range error. -/
def get_bin_rev : LinBinner → List Double → Except Exn Int
  | mk _ n l h none, [x] => .ok (axis_bin n l h x)
  | mk _ n l h (some s), x :: xs =>
    match get_bin_rev s xs with
    | .ok r => .ok (axis_bin n l h x + (n + 2) * r)
    | .error e => .error e
  | _, _ => .error .range_error

/-- Modelled from the spec: `LinBinner::get_bin` on an ordered coordinate sequence (section
4.2), which is not part of the sources.  The coordinates come in axis declaration order and the
head of the chain built by `Histogram::init` is the last-declared axis. -/
def get_bin (b : LinBinner) (input : List Double) : Except Exn Int :=
  get_bin_rev b input.reverse

end LinBinner

/-! ## Histogram -/

/-- The data members of `Histogram` that `Histogram.cxx` reads or writes: the binner chain
(the pointer `m_binner`, never null in a constructed object: lines 42 and 54), the axes, the
value buffer, the absorbed-input counter (an `int`) and the absorption flag.  The member
`m_chunking` is left out: the file only copies and swaps it. -/
structure Histogram where
  m_binner : LinBinner
  m_dimsensions : List Axis
  m_values : List Double
  m_n_nan : Int
  m_eat_nan : Bool

/-- The expression `new LinBinner(itr->name, itr->n_bins, itr->low, itr->high)` of
`Histogram::init` (lines 35 and 38). -/
def new_LinBinner (a : Axis) : LinBinner :=
  LinBinner.mk a.name a.n_bins a.low a.high none

/-- One pass of the loop of `Histogram::init` (lines 37-41) on the pair of `m_binner` and the
local `int n_values`. -/
def init_step (s : LinBinner × Int) (a : Axis) : LinBinner × Int :=
  (s.1.add_dimension (new_LinBinner a), wrap_int (s.2 * wrap_int (a.n_bins + 2)))

/-- The value of `std::vector<double>(n_values, 0)` (line 43) for an `int n_values`.  A
negative `int` converts to a `size_type` above `max_size()` and the constructor throws
(`std::length_error`; `std::bad_alloc` from the allocator in older libraries, which the model
does not tell apart); otherwise the vector has `n_values` elements, all zero.  Exhaustion of
memory is not modelled. -/
def vector_of_zeros (n_values : Int) : Except Exn (List Double) :=
  if n_values < 0 then .error .length_error else .ok (List.replicate n_values.toNat 0)

/-- The function `Histogram::init` (lines 26-44).  `eat_nan` is the constant `hist::eat_nan`
of `Histogram.hh`.  The reverse iterator visits the last-declared axis first. -/
def init (eat_nan : Nat) (dims : List Axis) (flags : Nat) : Except Exn Histogram :=
  match check_dimensions dims with
  | .error e => .error e
  | .ok () =>
    match dims.reverse with
    | [] => .error .assertion_failed
    | a :: earlier =>
      let s := earlier.foldl init_step (new_LinBinner a, wrap_int (a.n_bins + 2))
      match vector_of_zeros s.2 with
      | .error e => .error e
      | .ok values =>
        .ok { m_binner := s.1
              m_dimsensions := dims
              m_values := values
              m_n_nan := 0
              m_eat_nan := (flags &&& eat_nan) != 0 }

/-- The constructor `Histogram(const std::vector<Axis>&, unsigned)` (lines 22-25). -/
def Histogram.of_axes (eat_nan : Nat) (dims : List Axis) (flags : Nat) : Except Exn Histogram :=
  init eat_nan dims flags

/-- The one-dimensional constructor (lines 9-15). -/
def Histogram.of_range (eat_nan : Nat) (n_bins : Int) (low high : Double) (units : String)
    (flags : Nat) : Except Exn Histogram :=
  match init eat_nan (List.replicate 1 ⟨"x", n_bins, low, high, units⟩) flags with
  | .error e => .error e
  | .ok h => if h.m_dimsensions.length == 1 then .ok h else .error .assertion_failed

/-- The outcome of a call of a member function that may throw: the object after the call and
the exception that left the function, if any. -/
structure Outcome where
  state : Histogram
  raised : Option Exn

/-- The function `Histogram::safe_fill` (lines 136-150) at `T = std::vector<double>`.  The
access `m_values.at(bin)` throws `std::out_of_range` unless `0 <= bin < m_values.size()` (a
negative `bin` converts to a `size_type` above every size); `std::out_of_range` is not a
`std::range_error`, so the handler lets it pass, like every exception other than a range
error. -/
def safe_fill (h : Histogram) (input : List Double) (weight : Double) : Outcome :=
  match h.m_binner.get_bin input with
  | .ok bin =>
    if 0 ≤ bin ∧ bin < h.m_values.length then
      match h.m_values[bin.toNat]? with
      | some v => ⟨{ h with m_values := h.m_values.set bin.toNat (v + weight) }, none⟩
      | none => ⟨h, some .out_of_range⟩
    else ⟨h, some .out_of_range⟩
  | .error .range_error =>
    if h.m_eat_nan then ⟨{ h with m_n_nan := wrap_int (h.m_n_nan + 1) }, none⟩
    else ⟨h, some .range_error⟩
  | .error e => ⟨h, some e⟩

/-- The overload `Histogram::fill(const std::vector<double>&, double)` (lines 86-89). -/
def fill (h : Histogram) (input : List Double) (weight : Double) : Outcome :=
  safe_fill h input weight

/-- The overload `Histogram::fill(double, double)` (lines 95-99). -/
def fill_value (h : Histogram) (value : Double) (weight : Double) : Outcome :=
  if h.m_dimsensions.length == 1 then safe_fill h (List.replicate 1 value) weight
  else ⟨h, some .assertion_failed⟩

/-- The local `hsize_t bins` of the loop of `Histogram::write_to` (line 111): the `int` sum
`n_bins + 2` converted to `hsize_t`. -/
def write_to_bins (a : Axis) : Nat := wrap_u64 (wrap_int (a.n_bins + 2))

/-- The local `hsize_t total_entries` of `Histogram::write_to` after its first loop
(lines 108-115). -/
def write_to_total_entries (h : Histogram) : Nat :=
  h.m_dimsensions.foldl (fun total a => wrap_u64 (total * write_to_bins a)) 1

/-- The condition of `assert(m_values.size() == total_entries)` in `Histogram::write_to`
(line 122). -/
def write_to_assertion (h : Histogram) : Bool :=
  h.m_values.length == write_to_total_entries h

/-- The states of a Histogram that a program can reach from the construction on the axes
`dims` with the flags `flags`: the constructed object, and the object after each further call
of `fill`, whether the call returns or throws. -/
inductive Reachable (eat_nan : Nat) (dims : List Axis) (flags : Nat) : Histogram → Prop where
  | constructed (h : Histogram) :
      init eat_nan dims flags = .ok h → Reachable eat_nan dims flags h
  | filled (h : Histogram) (input : List Double) (weight : Double) :
      Reachable eat_nan dims flags h → Reachable eat_nan dims flags (fill h input weight).state

/-! ## Statements of the specification -/

/-- The product over all axes of `n_bins + 2`, as a mathematical integer. -/
def bins_product (dims : List Axis) : Int :=
  (dims.map (fun a => a.n_bins + 2)).prod

/-- The value of the local `int n_values` of `Histogram::init` when the loop has run over all
axes: the product of the `n_bins + 2` reduced to an `int`. -/
def n_values (dims : List Axis) : Int := wrap_int (bins_product dims)

/-- The flat index as the specification states it (section 4.2): `index = bin_0`, then
`index = index * (n_bins_i + 2) + bin_i` for each further axis in declaration order.  The
list pairs each axis with its coordinate. -/
def flat_index : List (Axis × Double) → Int
  | [] => 0
  | (a, x) :: rest =>
    rest.foldl (fun index p => index * (p.1.n_bins + 2) + axis_bin p.1.n_bins p.1.low p.1.high p.2)
      (axis_bin a.n_bins a.low a.high x)

/-- The chain whose head is the node of `a` and whose further nodes are those of `l`, in
order. -/
def chain (a : Axis) : List Axis → LinBinner
  | [] => new_LinBinner a
  | a₁ :: l => LinBinner.mk a.name a.n_bins a.low a.high (some (chain a₁ l))

/-- The bin of the coordinate `p.2` on the axis `p.1`. -/
def pair_bin (p : Axis × Double) : Int := axis_bin p.1.n_bins p.1.low p.1.high p.2

/-- The Histogram that `Histogram::init` leaves behind when it returns, for axes whose reverse
is `a :: earlier`. -/
def init_result (eat_nan : Nat) (dims : List Axis) (flags : Nat) (a : Axis)
    (earlier : List Axis) : Histogram :=
  { m_binner := chain a earlier
    m_dimsensions := dims
    m_values := List.replicate (n_values dims).toNat 0
    m_n_nan := 0
    m_eat_nan := (flags &&& eat_nan) != 0 }

/-! ## Concrete inputs -/

/-- An axis on the range from 0 to 1 with an empty unit label. -/
def unit_axis (name : String) (n_bins : Int) : Axis :=
  ⟨name, n_bins, .finite 0, .finite 1, ""⟩

/-- Two axes that carry the same name. -/
def axes_same_name : List Axis := [unit_axis "x" 1, unit_axis "x" 1]

/-- Two well-formed axes followed by one whose low bound lies above its high bound. -/
def axes_low_above_high : List Axis :=
  [unit_axis "x" 1, unit_axis "y" 1, ⟨"z", 1, .finite 2, .finite 1, ""⟩]

/-- One axis with a bin count of -3, so that `n_bins + 2` is -1. -/
def axes_negative_bins : List Axis := [unit_axis "x" (-3)]

/-- Two axes of 65534 bins each: the product of the `n_bins + 2` is `2 ^ 32`. -/
def axes_large : List Axis := [unit_axis "x" 65534, unit_axis "y" 65534]

/-- The axes `x` (2 bins on the range from 0 to 2) and `y` (3 bins on the range from 0 to 3). -/
def axes_xy : List Axis :=
  [⟨"x", 2, .finite 0, .finite 2, "m"⟩, ⟨"y", 3, .finite 0, .finite 3, "s"⟩]

/-- The Histogram that `init` constructs on `axes_xy` with no flag set, `hist::eat_nan`
being 1. -/
def hist_xy : Histogram :=
  init_result 1 axes_xy 0 ⟨"y", 3, .finite 0, .finite 3, "s"⟩
    [⟨"x", 2, .finite 0, .finite 2, "m"⟩]

/-- The Histogram that `init` constructs on `axes_xy` with the flag `hist::eat_nan` set,
`hist::eat_nan` being 1. -/
def hist_xy_absorbing : Histogram :=
  init_result 1 axes_xy 1 ⟨"y", 3, .finite 0, .finite 3, "s"⟩
    [⟨"x", 2, .finite 0, .finite 2, "m"⟩]

/-- The state of `hist_xy_absorbing` in which the counter holds `INT_MAX`. -/
def hist_xy_counter_max : Histogram :=
  { hist_xy_absorbing with m_n_nan := 2147483647 }

/-- The state of `h` after `n` calls of `fill` with an empty coordinate vector and weight 0. -/
def fill_empty (h : Histogram) : Nat → Histogram
  | 0 => h
  | n + 1 => (fill (fill_empty h n) [] 0).state

/-! ## Writing, copying -/

/-- Modelled from the spec: `LinBinner::clone`, which is not part of the sources: a deep copy
of the chain (section 4.3), node by node. -/
def LinBinner.clone : LinBinner → LinBinner
  | .mk nm n l h none => .mk nm n l h none
  | .mk nm n l h (some s) => .mk nm n l h (some (LinBinner.clone s))

/-- The copy constructor `Histogram(const Histogram&)` (lines 46-56).  The member `m_binner`
of `old` is not null (line 54). -/
def Histogram.copy (old : Histogram) : Histogram :=
  { m_binner := old.m_binner.clone
    m_dimsensions := old.m_dimsensions
    m_values := old.m_values
    m_n_nan := old.m_n_nan
    m_eat_nan := old.m_eat_nan }

/-- The function `swap(Histogram&, Histogram&)` (lines 70-79): the two objects after the
call. -/
def swap (f s : Histogram) : Histogram × Histogram :=
  ({ m_binner := s.m_binner, m_dimsensions := s.m_dimsensions, m_values := s.m_values,
     m_n_nan := s.m_n_nan, m_eat_nan := s.m_eat_nan },
   { m_binner := f.m_binner, m_dimsensions := f.m_dimsensions, m_values := f.m_values,
     m_n_nan := f.m_n_nan, m_eat_nan := f.m_eat_nan })

/-- The assignment `Histogram::operator=(Histogram old)` (lines 58-63): the parameter is a
copy of the right-hand side made by the copy constructor, `swap` exchanges it with `*this`,
and the old members of `*this` leave with the parameter. -/
def Histogram.assign (this rhs : Histogram) : Histogram :=
  (swap this (Histogram.copy rhs)).1

/-! ## Objects in memory -/

/-- A Histogram object as it lies in memory.  The scalar members and the axes lie in the
object; `m_binner` is the address of the chain that `new` or `clone` allocated; `m_values` is
the address of the storage that the `std::vector<double>` owns. -/
structure HistogramObject where
  m_binner : Nat
  m_dimsensions : List Axis
  m_values : Nat
  m_n_nan : Int
  m_eat_nan : Bool

/-- The memory of a program: the Histogram objects, the binner chains and the storage blocks
of the value vectors, each found by its address.  An allocation takes the next address;
nothing is freed. -/
structure Memory where
  objects : List HistogramObject
  binners : List LinBinner
  vectors : List (List Double)

/-- The Histogram that the object at the address `this` holds: its own members, the chain its
`m_binner` points to and the elements of its `m_values`. -/
def Memory.load (m : Memory) (this : Nat) : Option Histogram :=
  match m.objects[this]? with
  | none => none
  | some o =>
    match m.binners[o.m_binner]?, m.vectors[o.m_values]? with
    | some b, some v =>
      some { m_binner := b, m_dimsensions := o.m_dimsensions, m_values := v,
             m_n_nan := o.m_n_nan, m_eat_nan := o.m_eat_nan }
    | _, _ => none

/-- A new object that holds the Histogram `h`, as a constructor leaves it: the chain from
`new LinBinner` (line 35) and the storage of `m_values` (line 43) are fresh allocations.
The result is the memory and the address of the object. -/
def Memory.place (m : Memory) (h : Histogram) : Memory × Nat :=
  ({ objects := m.objects ++
       [{ m_binner := m.binners.length, m_dimsensions := h.m_dimsensions,
          m_values := m.vectors.length, m_n_nan := h.m_n_nan, m_eat_nan := h.m_eat_nan }]
     binners := m.binners ++ [h.m_binner]
     vectors := m.vectors ++ [h.m_values] }, m.objects.length)

/-- The copy constructor `Histogram(const Histogram&)` (lines 46-56) in memory, for the
object at the address `old`.  The initialiser `m_values(old.m_values)` is the copy
constructor of `std::vector`, which allocates storage and copies the elements;
`old.m_binner->clone()` allocates the copy of the chain; the other members are copied into
the new object.  The result is the memory and the address of the new object. -/
def Memory.copy_construct (m : Memory) (old : Nat) : Option (Memory × Nat) :=
  match m.objects[old]? with
  | none => none
  | some o =>
    match m.binners[o.m_binner]?, m.vectors[o.m_values]? with
    | some b, some v =>
      some ({ objects := m.objects ++
                [{ m_binner := m.binners.length, m_dimsensions := o.m_dimsensions,
                   m_values := m.vectors.length, m_n_nan := o.m_n_nan,
                   m_eat_nan := o.m_eat_nan }]
              binners := m.binners ++ [b.clone]
              vectors := m.vectors ++ [v] }, m.objects.length)
    | _, _ => none

/-- The call `this->fill(input, weight)` (lines 86-89 and 136-150) in memory: `safe_fill`
reads the chain that `m_binner` points to, writes `m_values.at(bin)` in the storage that
`m_values` owns and `m_n_nan` in the object at `this`.  The result is the memory after the
call and the exception that left it, if any; there is none for an address without an
object. -/
def Memory.fill (m : Memory) (this : Nat) (input : List Double) (weight : Double) :
    Option (Memory × Option Exn) :=
  match m.objects[this]?, m.load this with
  | some o, some h =>
    some ({ objects := m.objects.set this
              { o with m_n_nan := (safe_fill h input weight).state.m_n_nan }
            binners := m.binners
            vectors := m.vectors.set o.m_values (safe_fill h input weight).state.m_values },
          (safe_fill h input weight).raised)
  | _, _ => none

/-- The empty memory. -/
def Memory.empty : Memory := { objects := [], binners := [], vectors := [] }

/-- A memory in which two objects share one chain and one block of vector storage: what a
member-wise copy of the pointers would leave.  The storage holds the three slots of a
Histogram on one axis of one bin. -/
def memory_with_alias : Memory :=
  { objects := [{ m_binner := 0, m_dimsensions := [unit_axis "x" 1], m_values := 0,
                  m_n_nan := 0, m_eat_nan := false },
                { m_binner := 0, m_dimsensions := [unit_axis "x" 1], m_values := 0,
                  m_n_nan := 0, m_eat_nan := false }]
    binners := [new_LinBinner (unit_axis "x" 1)]
    vectors := [[0, 0, 0]] }

/-- The sum of a sequence of doubles, with the exact addition of the model. -/
def total (values : List Double) : Double :=
  values.foldr (fun v acc => v + acc) 0

/-- The buffer `values` after `values.at(i) += weight`, for an index inside the buffer. -/
def add_at : List Double → Nat → Double → List Double
  | [], _, _ => []
  | v :: values, 0, weight => (v + weight) :: values
  | v :: values, i + 1, weight => v :: add_at values i weight

/-- The slot that a fill with the coordinates `input` adds its weight to: the index that the
binner chain resolves, when there is one and it lies inside the buffer. -/
def landing_slot (h : Histogram) (input : List Double) : Option Nat :=
  match h.m_binner.get_bin input with
  | .ok bin => if 0 ≤ bin ∧ bin < h.m_values.length then some bin.toNat else none
  | .error _ => none

/-- Whether the binner chain resolves the coordinates `input` to a flat index. -/
def resolves (h : Histogram) (input : List Double) : Bool :=
  match h.m_binner.get_bin input with
  | .ok _ => true
  | .error _ => false

/-- The Histogram after a sequence of calls of `fill`, each with its coordinates and its
weight, whether the calls return or throw. -/
def fill_all (h : Histogram) : List (List Double × Double) → Histogram
  | [] => h
  | f :: rest => fill_all (fill h f.1 f.2).state rest

/-- The Histogram `h` with `weight` added to the slot `slot`, if there is one. -/
def add_to_slot (h : Histogram) (slot : Option Nat) (weight : Double) : Histogram :=
  match slot with
  | some i => { h with m_values := add_at h.m_values i weight }
  | none => h

/-- The Histogram that `init` constructs on `axes_large` with no flag set, `hist::eat_nan`
being 1. -/
def hist_large : Histogram :=
  init_result 1 axes_large 0 (unit_axis "y" 65534) [unit_axis "x" 65534]

/-- One axis with a bin count of -2, so that `n_bins + 2` is 0 and the buffer is empty. -/
def axes_no_slot : List Axis := [unit_axis "x" (-2)]

/-- The Histogram that `init` constructs on `axes_no_slot` with the flag `hist::eat_nan` set,
`hist::eat_nan` being 1. -/
def hist_no_slot : Histogram := init_result 1 axes_no_slot 1 (unit_axis "x" (-2)) []

/-! ## Lemmas on the machine numbers -/

theorem wrap_int_modEq (z : Int) : wrap_int z ≡ z [ZMOD 4294967296] := by
  unfold wrap_int Int.ModEq
  omega

theorem wrap_int_eq_of_modEq {a b : Int} (h : a ≡ b [ZMOD 4294967296]) :
    wrap_int a = wrap_int b := by
  unfold wrap_int
  unfold Int.ModEq at h
  omega

theorem wrap_int_range (z : Int) : -2147483648 ≤ wrap_int z ∧ wrap_int z < 2147483648 := by
  unfold wrap_int
  omega

theorem wrap_int_of_range {z : Int} (h₁ : -2147483648 ≤ z) (h₂ : z < 2147483648) :
    wrap_int z = z := by
  unfold wrap_int
  omega

theorem wrap_int_mul_wrap_int (a b : Int) :
    wrap_int (wrap_int a * wrap_int b) = wrap_int (a * b) :=
  wrap_int_eq_of_modEq ((wrap_int_modEq a).mul (wrap_int_modEq b))

/-! ## Lemmas on `check_dimensions` -/

theorem check_dimensions_loop_ok_iff (axes : List Axis) :
    check_dimensions_loop [] axes = .ok () ↔
      ∀ a ∈ axes, a.name.length ≠ 0 ∧ a.low.gt a.high = false := by
  induction axes with
  | nil => simp [check_dimensions_loop]
  | cons a rest ih =>
    by_cases h₁ : a.name.length = 0
    · simp [check_dimensions_loop, h₁]
    · by_cases h₂ : a.low.gt a.high = true
      · simp [check_dimensions_loop, h₁, h₂]
      · simp only [Bool.not_eq_true] at h₂
        simp [check_dimensions_loop, h₁, h₂, ih]

theorem check_dimensions_loop_error (names : List String) (axes : List Axis) :
    check_dimensions_loop names axes = .ok () ∨
      ∃ msg, check_dimensions_loop names axes = .error (.logic_error msg) := by
  induction axes with
  | nil => simp [check_dimensions_loop]
  | cons a rest ih =>
    unfold check_dimensions_loop
    split
    · exact Or.inr ⟨_, rfl⟩
    · split
      · exact Or.inr ⟨_, rfl⟩
      · split
        · exact Or.inr ⟨_, rfl⟩
        · exact ih

theorem check_dimensions_ok_iff (axes : List Axis) :
    check_dimensions axes = .ok () ↔
      axes ≠ [] ∧ ∀ a ∈ axes, a.name.length ≠ 0 ∧ a.low.gt a.high = false := by
  unfold check_dimensions
  cases axes with
  | nil => simp
  | cons a rest => simp [check_dimensions_loop_ok_iff]

theorem check_dimensions_error (axes : List Axis) :
    check_dimensions axes = .ok () ∨
      ∃ msg, check_dimensions axes = .error (.logic_error msg) := by
  unfold check_dimensions
  split
  · exact Or.inr ⟨_, rfl⟩
  · exact check_dimensions_loop_error [] axes

/-! ## Lemmas on the binner chain -/

theorem add_dimension_chain (l : List Axis) (a d : Axis) :
    (chain a l).add_dimension (new_LinBinner d) = chain a (l ++ [d]) := by
  induction l generalizing a with
  | nil => simp [chain, new_LinBinner, LinBinner.add_dimension]
  | cons a₁ l ih => simp [chain, LinBinner.add_dimension, ih]

theorem foldl_init_step_fst (l pre : List Axis) (a : Axis) (n : Int) :
    (l.foldl init_step (chain a pre, n)).1 = chain a (pre ++ l) := by
  induction l generalizing pre n with
  | nil => simp
  | cons d l ih =>
    simp only [List.foldl_cons, init_step, add_dimension_chain]
    rw [ih]
    simp

theorem foldl_init_step_snd (l : List Axis) (b : LinBinner) (z : Int) :
    (l.foldl init_step (b, wrap_int z)).2 =
      wrap_int (z * (l.map (fun a => a.n_bins + 2)).prod) := by
  induction l generalizing b z with
  | nil => simp
  | cons d l ih =>
    simp only [List.foldl_cons, init_step, List.map_cons, List.prod_cons]
    rw [ih]
    apply wrap_int_eq_of_modEq
    have h := ((wrap_int_modEq z).mul (wrap_int_modEq (d.n_bins + 2))).mul_right
      (l.map (fun a => a.n_bins + 2)).prod
    simpa [mul_assoc] using h

theorem get_bin_rev_chain (l : List Axis) (a : Axis) (coords : List Double) :
    (chain a l).get_bin_rev coords =
      if coords.length = l.length + 1 then
        .ok (((a :: l).zip coords).foldr (fun p acc => pair_bin p + (p.1.n_bins + 2) * acc) 0)
      else .error .range_error := by
  induction l generalizing a coords with
  | nil =>
    match coords with
    | [] => simp [chain, new_LinBinner, LinBinner.get_bin_rev]
    | [x] => simp [chain, new_LinBinner, LinBinner.get_bin_rev, pair_bin]
    | x :: y :: r => simp [chain, new_LinBinner, LinBinner.get_bin_rev]
  | cons a₁ l ih =>
    match coords with
    | [] => simp [chain, LinBinner.get_bin_rev]
    | x :: r =>
      simp only [chain, LinBinner.get_bin_rev, ih]
      by_cases h : r.length = l.length + 1
      · simp [h, pair_bin]
      · simp [h]

theorem flat_index_eq_foldl (p : List (Axis × Double)) :
    flat_index p = p.foldl (fun index q => index * (q.1.n_bins + 2) + pair_bin q) 0 := by
  cases p with
  | nil => rfl
  | cons q rest => simp [flat_index, pair_bin]

theorem foldr_reverse_zip (dims : List Axis) (input : List Double)
    (hlen : input.length = dims.length) :
    ((dims.reverse).zip input.reverse).foldr
        (fun p acc => pair_bin p + (p.1.n_bins + 2) * acc) 0 =
      flat_index (dims.zip input) := by
  rw [flat_index_eq_foldl, List.zip_eq_zipWith, List.zip_eq_zipWith,
    ← List.reverse_zipWith hlen.symm, List.foldr_reverse]
  congr 1
  funext index q
  ring

/-! ## Lemmas on `init` -/

theorem bins_product_of_reverse {dims : List Axis} {a : Axis} {earlier : List Axis}
    (hrev : dims.reverse = a :: earlier) :
    bins_product dims = (a.n_bins + 2) * (earlier.map (fun a => a.n_bins + 2)).prod := by
  have h : dims = (a :: earlier).reverse := by rw [← hrev, List.reverse_reverse]
  rw [bins_product, h, List.map_reverse, List.prod_reverse]
  simp

theorem init_eq (eat_nan : Nat) (dims : List Axis) (flags : Nat) {a : Axis}
    {earlier : List Axis} (hrev : dims.reverse = a :: earlier) :
    init eat_nan dims flags =
      match check_dimensions dims with
      | .error e => .error e
      | .ok () =>
        if n_values dims < 0 then .error .length_error
        else .ok (init_result eat_nan dims flags a earlier) := by
  have hc : new_LinBinner a = chain a [] := rfl
  have h₁ := foldl_init_step_fst earlier [] a (wrap_int (a.n_bins + 2))
  have h₂ := foldl_init_step_snd earlier (chain a []) (a.n_bins + 2)
  rw [← bins_product_of_reverse hrev] at h₂
  unfold init
  cases check_dimensions dims with
  | error e => rfl
  | ok u =>
    simp only [hrev, hc, h₂, vector_of_zeros]
    by_cases hn : wrap_int (bins_product dims) < 0
    · simp [hn, n_values]
    · simp [hn, n_values, init_result, h₁]

theorem init_ok_iff (eat_nan : Nat) (dims : List Axis) (flags : Nat) (h : Histogram) :
    init eat_nan dims flags = .ok h ↔
      check_dimensions dims = .ok () ∧ 0 ≤ n_values dims ∧
        ∃ a earlier, dims.reverse = a :: earlier ∧
          h = init_result eat_nan dims flags a earlier := by
  rcases hrev : dims.reverse with _ | ⟨a, earlier⟩
  · have hd : dims = [] := by simpa using hrev
    subst hd
    simp [init, check_dimensions]
  · rw [init_eq eat_nan dims flags hrev]
    rcases check_dimensions_error dims with hc | ⟨msg, hc⟩
    · rw [hc]
      by_cases hn : n_values dims < 0
      · simp [hn]
      · simp only [hn, if_false, Except.ok.injEq, true_and]
        constructor
        · intro e
          exact ⟨by omega, a, earlier, rfl, e.symm⟩
        · rintro ⟨-, a₁, e₁, he, rfl⟩
          cases he
          rfl
    · rw [hc]
      simp

theorem init_get_bin {eat_nan : Nat} {dims : List Axis} {flags : Nat} {h : Histogram}
    (hinit : init eat_nan dims flags = .ok h) (input : List Double) :
    h.m_binner.get_bin input =
      if input.length = dims.length then .ok (flat_index (dims.zip input))
      else .error .range_error := by
  obtain ⟨-, -, a, earlier, hrev, rfl⟩ := (init_ok_iff eat_nan dims flags h).1 hinit
  have hl : dims.length = earlier.length + 1 := by
    rw [← List.length_reverse dims, hrev, List.length_cons]
  simp only [init_result, LinBinner.get_bin, get_bin_rev_chain, List.length_reverse, ← hl]
  by_cases hlen : input.length = dims.length
  · rw [if_pos hlen, if_pos hlen, ← hrev, foldr_reverse_zip dims input hlen]
  · rw [if_neg hlen, if_neg hlen]

/-! ## Lemmas on `safe_fill` and on the reachable states -/

theorem safe_fill_frame (h : Histogram) (input : List Double) (weight : Double) :
    (safe_fill h input weight).state.m_binner = h.m_binner ∧
      (safe_fill h input weight).state.m_dimsensions = h.m_dimsensions ∧
      (safe_fill h input weight).state.m_eat_nan = h.m_eat_nan ∧
      (safe_fill h input weight).state.m_values.length = h.m_values.length := by
  unfold safe_fill
  split
  · split
    · split <;> simp
    · simp
  · split <;> simp
  · simp

theorem safe_fill_counter_range (h : Histogram) (input : List Double) (weight : Double)
    (hr : -2147483648 ≤ h.m_n_nan ∧ h.m_n_nan < 2147483648) :
    -2147483648 ≤ (safe_fill h input weight).state.m_n_nan ∧
      (safe_fill h input weight).state.m_n_nan < 2147483648 := by
  unfold safe_fill
  split
  · split
    · split <;> simpa using hr
    · simpa using hr
  · split
    · exact wrap_int_range _
    · simpa using hr
  · simpa using hr

theorem reachable_invariant {eat_nan : Nat} {dims : List Axis} {flags : Nat} {h : Histogram}
    (hr : Reachable eat_nan dims flags h) :
    ∃ h₀, init eat_nan dims flags = .ok h₀ ∧ h.m_binner = h₀.m_binner ∧
      h.m_dimsensions = dims ∧ h.m_eat_nan = ((flags &&& eat_nan) != 0) ∧
      h.m_values.length = (n_values dims).toNat ∧
      -2147483648 ≤ h.m_n_nan ∧ h.m_n_nan < 2147483648 := by
  induction hr with
  | constructed h hinit =>
    refine ⟨h, hinit, rfl, ?_⟩
    obtain ⟨-, -, a, earlier, -, rfl⟩ := (init_ok_iff eat_nan dims flags h).1 hinit
    simp [init_result]
  | filled h input weight _ ih =>
    obtain ⟨h₀, hinit, hb, hd, he, hv, hn⟩ := ih
    obtain ⟨fb, fd, fe, fv⟩ := safe_fill_frame h input weight
    have fn := safe_fill_counter_range h input weight hn
    exact ⟨h₀, hinit, by rw [fill, fb, hb], by rw [fill, fd, hd], by rw [fill, fe, he],
      by rw [fill, fv, hv], fn⟩

theorem reachable_get_bin {eat_nan : Nat} {dims : List Axis} {flags : Nat} {h : Histogram}
    (hr : Reachable eat_nan dims flags h) (input : List Double) :
    h.m_binner.get_bin input =
      if input.length = dims.length then .ok (flat_index (dims.zip input))
      else .error .range_error := by
  obtain ⟨h₀, hinit, hb, -⟩ := reachable_invariant hr
  rw [hb, init_get_bin hinit]

theorem Double.gt_eq_false_of_le {a b : Double} (h : a.le b = true) : a.gt b = false := by
  cases a <;> cases b <;> simp_all [Double.le, Double.gt, Double.lt]

theorem length_ne_zero_of_ne_empty {s : String} (h : s ≠ "") : s.length ≠ 0 := by
  intro h0
  apply h
  have hd : s.data = [] := List.length_eq_zero.1 h0
  exact String.ext hd

/-! ## Construction -/

/-- C1 (the code departs from the claim): two axes with the same name pass
`check_dimensions`, and `init` constructs a Histogram from them. -/
theorem duplicate_axis_name_accepted :
    check_dimensions axes_same_name = .ok () ∧
      ∃ h, init 1 axes_same_name 0 = .ok h ∧ h.m_dimsensions = axes_same_name := by
  have hc : check_dimensions axes_same_name = .ok () := by
    rw [check_dimensions_ok_iff]
    have hx : "x".length = 1 := by decide
    simp [axes_same_name, unit_axis, Double.gt, Double.lt, hx]
  refine ⟨hc, init_result 1 axes_same_name 0 (unit_axis "x" 1) [unit_axis "x" 1], ?_, rfl⟩
  rw [init_ok_iff]
  refine ⟨hc, ?_, _, _, rfl, rfl⟩
  norm_num [n_values, bins_product, wrap_int, axes_same_name, unit_axis]

/-- C2: an axis list that is empty, or has an axis with an empty name, or has an axis with
`low > high`, makes `check_dimensions` throw a `std::logic_error`, and `init` fails with that
same error. -/
theorem construction_rejects_invalid_axes (eat_nan : Nat) (dims : List Axis) (flags : Nat)
    (hbad : dims = [] ∨ ∃ a ∈ dims, a.name = "" ∨ a.low.gt a.high = true) :
    ∃ msg, check_dimensions dims = .error (.logic_error msg) ∧
      init eat_nan dims flags = .error (.logic_error msg) := by
  rcases check_dimensions_error dims with hc | ⟨msg, hc⟩
  · exfalso
    obtain ⟨hne, hall⟩ := (check_dimensions_ok_iff dims).1 hc
    rcases hbad with rfl | ⟨a, ha, hname | hgt⟩
    · exact hne rfl
    · exact (hall a ha).1 (by simp [hname])
    · simp [(hall a ha).2] at hgt
  · exact ⟨msg, hc, by simp [init, hc]⟩

theorem construction_rejects_invalid_axes_witness :
    ∃ msg, check_dimensions axes_low_above_high = .error (.logic_error msg) ∧
      init 1 axes_low_above_high 0 = .error (.logic_error msg) :=
  construction_rejects_invalid_axes 1 axes_low_above_high 0
    (Or.inr ⟨⟨"z", 1, .finite 2, .finite 1, ""⟩,
      by simp [axes_low_above_high], Or.inr (by simp [Double.gt, Double.lt])⟩)

/-- C3 (the claim as stated fails): one axis with a non-empty name, `low <= high` and
`n_bins = -3` satisfies every condition of the claim, and `init` fails with the
`std::length_error` of the buffer allocation. -/
theorem negative_bin_count_rejected :
    axes_negative_bins ≠ [] ∧ (∀ a ∈ axes_negative_bins, a.name ≠ "") ∧
      (axes_negative_bins.map Axis.name).Nodup ∧
      (∀ a ∈ axes_negative_bins, a.low.le a.high = true) ∧
      init 1 axes_negative_bins 0 = .error .length_error := by
  refine ⟨by simp [axes_negative_bins], by simp [axes_negative_bins, unit_axis],
    by simp [axes_negative_bins], by simp [axes_negative_bins, unit_axis, Double.le], ?_⟩
  have hc : check_dimensions axes_negative_bins = .ok () := by
    rw [check_dimensions_ok_iff]
    have hx : "x".length = 1 := by decide
    simp [axes_negative_bins, unit_axis, Double.gt, Double.lt, hx]
  have hn : n_values axes_negative_bins < 0 := by
    norm_num [n_values, bins_product, wrap_int, axes_negative_bins, unit_axis]
  rw [@init_eq 1 axes_negative_bins 0 (unit_axis "x" (-3)) [] rfl, hc]
  simp [hn]

/-- C3 (amended): a non-empty axis list whose names are non-empty and pairwise distinct, whose
axes all satisfy `low <= high`, and whose product of the `n_bins + 2`, reduced to an `int` as
`init` computes it, is not negative, is accepted by `init`. -/
theorem construction_succeeds (eat_nan : Nat) (dims : List Axis) (flags : Nat)
    (hne : dims ≠ []) (hname : ∀ a ∈ dims, a.name ≠ "")
    (_hdistinct : (dims.map Axis.name).Nodup)
    (hle : ∀ a ∈ dims, a.low.le a.high = true) (hn : 0 ≤ n_values dims) :
    ∃ h, init eat_nan dims flags = .ok h := by
  have hc : check_dimensions dims = .ok () :=
    (check_dimensions_ok_iff dims).2
      ⟨hne, fun a ha => ⟨length_ne_zero_of_ne_empty (hname a ha),
        Double.gt_eq_false_of_le (hle a ha)⟩⟩
  rcases hrev : dims.reverse with _ | ⟨a, earlier⟩
  · exact absurd (by simpa using hrev) hne
  · exact ⟨_, (init_ok_iff eat_nan dims flags _).2 ⟨hc, hn, a, earlier, hrev, rfl⟩⟩

theorem construction_succeeds_witness : ∃ h, init 1 axes_same_name.tail 0 = .ok h :=
  construction_succeeds 1 axes_same_name.tail 0 (by simp [axes_same_name])
    (by simp [axes_same_name, unit_axis]) (by simp [axes_same_name])
    (by simp [axes_same_name, unit_axis, Double.le])
    (by norm_num [n_values, bins_product, wrap_int, axes_same_name, unit_axis])

theorem init_axes_large :
    init 1 axes_large 0 =
      .ok (init_result 1 axes_large 0 (unit_axis "y" 65534) [unit_axis "x" 65534]) := by
  have hc : check_dimensions axes_large = .ok () := by
    rw [check_dimensions_ok_iff]
    have hx : "x".length = 1 := by decide
    have hy : "y".length = 1 := by decide
    simp [axes_large, unit_axis, Double.gt, Double.lt, hx, hy]
  rw [init_ok_iff]
  refine ⟨hc, ?_, _, _, rfl, rfl⟩
  norm_num [n_values, bins_product, wrap_int, axes_large, unit_axis]

theorem n_values_axes_large : n_values axes_large = 0 := by
  norm_num [n_values, bins_product, wrap_int, axes_large, unit_axis]

theorem init_axes_xy : init 1 axes_xy 0 = .ok hist_xy := by
  have hc : check_dimensions axes_xy = .ok () := by
    rw [check_dimensions_ok_iff]
    have hx : "x".length = 1 := by decide
    have hy : "y".length = 1 := by decide
    simp [axes_xy, Double.gt, Double.lt, hx, hy]
  rw [init_ok_iff]
  refine ⟨hc, ?_, _, _, rfl, rfl⟩
  norm_num [n_values, bins_product, wrap_int, axes_xy]

theorem n_values_axes_xy : n_values axes_xy = 20 := by
  norm_num [n_values, bins_product, wrap_int, axes_xy]

/-- C4 (the code departs from the claim): on two axes of 65534 bins each `init` returns a
Histogram whose buffer is empty, while the product of the `n_bins + 2` is `2 ^ 32`: the
local `int n_values` cannot hold the product. -/
theorem buffer_shorter_than_product :
    ∃ h, init 1 axes_large 0 = .ok h ∧ h.m_values.length = 0 ∧
      bins_product axes_large = 4294967296 := by
  refine ⟨_, init_axes_large, ?_, ?_⟩
  · simp [init_result, n_values_axes_large]
  · norm_num [bins_product, axes_large, unit_axis]

/-! ## Filling -/

/-- C5: when the binner chain resolves the coordinates to an index `i` inside the buffer,
`fill` returns without an exception; the buffer keeps its length, slot `i` holds its old value
plus the weight, every other slot is unchanged, and the counter, the absorption flag, the
axes and the binner chain are unchanged. -/
theorem fill_adds_weight (h : Histogram) (input : List Double) (weight : Double) (i : Int)
    (hbin : h.m_binner.get_bin input = .ok i) (h0 : 0 ≤ i) (hlt : i < h.m_values.length) :
    (fill h input weight).raised = none ∧
      (fill h input weight).state.m_values.length = h.m_values.length ∧
      (∃ v, h.m_values[i.toNat]? = some v ∧
        (fill h input weight).state.m_values[i.toNat]? = some (v + weight)) ∧
      (∀ j, j ≠ i.toNat → (fill h input weight).state.m_values[j]? = h.m_values[j]?) ∧
      (fill h input weight).state.m_n_nan = h.m_n_nan ∧
      (fill h input weight).state.m_eat_nan = h.m_eat_nan ∧
      (fill h input weight).state.m_dimsensions = h.m_dimsensions ∧
      (fill h input weight).state.m_binner = h.m_binner := by
  have hi : i.toNat < h.m_values.length := by omega
  have hget : h.m_values[i.toNat]? = some h.m_values[i.toNat] := List.getElem?_eq_getElem hi
  have hfill : fill h input weight =
      ⟨{ h with m_values := h.m_values.set i.toNat (h.m_values[i.toNat] + weight) }, none⟩ := by
    simp only [fill, safe_fill, hbin, hget]
    rw [if_pos ⟨h0, hlt⟩]
  rw [hfill]
  refine ⟨rfl, by simp, ⟨_, hget, by simp [hi]⟩, ?_, rfl, rfl, rfl, rfl⟩
  intro j hj
  simp [List.getElem?_set_ne (Ne.symm hj)]

theorem fill_adds_weight_witness :
    (fill hist_xy [.finite (1/2), .finite (1/2)] (.finite 2)).raised = none ∧
      (fill hist_xy [.finite (1/2), .finite (1/2)] (.finite 2)).state.m_values.length = 20 := by
  have hb : hist_xy.m_binner.get_bin [.finite (1/2), .finite (1/2)] = .ok 6 := by
    rw [init_get_bin init_axes_xy]
    norm_num [axes_xy, flat_index, axis_bin, linear_bin, Double.isFinite, Double.lt, Double.ge,
      Double.le]
  have hl : hist_xy.m_values.length = 20 := by simp [hist_xy, init_result, n_values_axes_xy]
  have h := fill_adds_weight hist_xy [.finite (1/2), .finite (1/2)] (.finite 2) 6 hb
    (by norm_num) (by rw [hl]; norm_num)
  exact ⟨h.1, h.2.1.trans hl⟩

/-- C6: in every state of a Histogram constructed with absorption disabled, a fill whose
coordinate vector has a length different from the number of axes throws the range error of
the binner chain and leaves the Histogram as it was: buffer, counter and all. -/
theorem fill_wrong_length_throws (eat_nan : Nat) (dims : List Axis) (flags : Nat)
    (h : Histogram) (input : List Double) (weight : Double)
    (hr : Reachable eat_nan dims flags h) (hflag : flags &&& eat_nan = 0)
    (hlen : input.length ≠ dims.length) :
    h.m_binner.get_bin input = .error .range_error ∧
      fill h input weight = ⟨h, some .range_error⟩ := by
  have hb : h.m_binner.get_bin input = .error .range_error := by
    rw [reachable_get_bin hr, if_neg hlen]
  obtain ⟨-, -, -, -, he, -⟩ := reachable_invariant hr
  have he' : h.m_eat_nan = false := by simp [he, hflag]
  exact ⟨hb, by simp [fill, safe_fill, hb, he']⟩

theorem fill_wrong_length_throws_witness :
    fill hist_xy [.finite (1/2)] (.finite 2) = ⟨hist_xy, some .range_error⟩ :=
  (fill_wrong_length_throws 1 axes_xy 0 hist_xy [.finite (1/2)] (.finite 2)
    (Reachable.constructed hist_xy init_axes_xy) (by decide) (by simp [axes_xy])).2

theorem init_axes_xy_absorbing : init 1 axes_xy 1 = .ok hist_xy_absorbing := by
  have hc : check_dimensions axes_xy = .ok () := by
    rw [check_dimensions_ok_iff]
    have hx : "x".length = 1 := by decide
    have hy : "y".length = 1 := by decide
    simp [axes_xy, Double.gt, Double.lt, hx, hy]
  rw [init_ok_iff]
  refine ⟨hc, ?_, _, _, rfl, rfl⟩
  norm_num [n_values, bins_product, wrap_int, axes_xy]

theorem reachable_fill_empty {eat_nan : Nat} {dims : List Axis} {flags : Nat} {h : Histogram}
    (hr : Reachable eat_nan dims flags h) (n : Nat) :
    Reachable eat_nan dims flags (fill_empty h n) := by
  induction n with
  | zero => exact hr
  | succ n ih => exact Reachable.filled _ _ _ ih

theorem fill_absorbs {eat_nan : Nat} {dims : List Axis} {flags : Nat} {h : Histogram}
    (hr : Reachable eat_nan dims flags h) (hflag : flags &&& eat_nan ≠ 0)
    (input : List Double) (weight : Double) (hlen : input.length ≠ dims.length) :
    fill h input weight = ⟨{ h with m_n_nan := wrap_int (h.m_n_nan + 1) }, none⟩ := by
  have hb : h.m_binner.get_bin input = .error .range_error := by
    rw [reachable_get_bin hr, if_neg hlen]
  obtain ⟨-, -, -, -, he, -⟩ := reachable_invariant hr
  have he' : h.m_eat_nan = true := by simp [he, hflag]
  simp [fill, safe_fill, hb, he']

theorem fill_empty_counter (n : Nat) (hn : n ≤ 2147483647) :
    fill_empty hist_xy_absorbing n = { hist_xy_absorbing with m_n_nan := n } := by
  induction n with
  | zero => rfl
  | succ n ih =>
    have hr := reachable_fill_empty (Reachable.constructed _ init_axes_xy_absorbing) n
    have hf := fill_absorbs hr (by decide) [] 0 (by simp [axes_xy])
    rw [fill_empty, hf, ih (by omega)]
    have hw : wrap_int ((n : Int) + 1) = (n : Int) + 1 :=
      wrap_int_of_range (by omega) (by omega)
    simp [hw]

/-- C7 (the claim as stated fails): the state of an absorbing Histogram on the axes `x` and
`y` in which the counter holds `INT_MAX` is reached by `INT_MAX` absorbed fills; the next fill
with a coordinate vector of the wrong length returns normally and leaves the counter at
`INT_MIN`, not at the old value plus 1. -/
theorem counter_wraps_at_int_max :
    Reachable 1 axes_xy 1 hist_xy_counter_max ∧
      hist_xy_counter_max.m_n_nan = 2147483647 ∧
      (fill hist_xy_counter_max [] 0).raised = none ∧
      (fill hist_xy_counter_max [] 0).state.m_n_nan = -2147483648 := by
  have hr : Reachable 1 axes_xy 1 hist_xy_counter_max := by
    have h := reachable_fill_empty (Reachable.constructed _ init_axes_xy_absorbing) 2147483647
    rw [fill_empty_counter 2147483647 (le_refl _)] at h
    exact h
  have hf := fill_absorbs hr (by decide) [] 0 (by simp [axes_xy])
  refine ⟨hr, rfl, by rw [hf], ?_⟩
  rw [hf]
  show wrap_int (2147483647 + 1) = -2147483648
  decide

/-- C7 (amended): in every state of a Histogram constructed with absorption enabled in which
the counter is below `INT_MAX`, a fill whose coordinate vector has a length different from the
number of axes returns normally, adds exactly 1 to the counter and changes nothing else: the
weight is dropped and every buffer slot is as before. -/
theorem fill_wrong_length_absorbed (eat_nan : Nat) (dims : List Axis) (flags : Nat)
    (h : Histogram) (input : List Double) (weight : Double)
    (hr : Reachable eat_nan dims flags h) (hflag : flags &&& eat_nan ≠ 0)
    (hlen : input.length ≠ dims.length) (hmax : h.m_n_nan < 2147483647) :
    fill h input weight = ⟨{ h with m_n_nan := h.m_n_nan + 1 }, none⟩ := by
  obtain ⟨-, -, -, -, -, -, hlo, -⟩ := reachable_invariant hr
  rw [fill_absorbs hr hflag input weight hlen,
    wrap_int_of_range (by omega) (by omega)]

theorem fill_wrong_length_absorbed_witness :
    fill hist_xy_absorbing [.finite (1/2)] (.finite 2) =
      ⟨{ hist_xy_absorbing with m_n_nan := 0 + 1 }, none⟩ :=
  fill_wrong_length_absorbed 1 axes_xy 1 hist_xy_absorbing [.finite (1/2)] (.finite 2)
    (Reachable.constructed _ init_axes_xy_absorbing) (by decide) (by simp [axes_xy])
    (by simp [hist_xy_absorbing, init_result])

/-! ## The flat index -/

/-- C8: for the Histogram that `init` builds on the axes `dims`, the chain (head node for the
last-declared axis, then one `add_dimension` per earlier axis in reverse order) resolves a
coordinate tuple of the length of `dims` to the mixed-radix value `index = b_0`, then
`index = index * (n_bins_i + 2) + b_i`: the last-declared axis varies fastest. -/
theorem chain_resolves_mixed_radix (eat_nan : Nat) (dims : List Axis) (flags : Nat)
    (h : Histogram) (input : List Double) (hinit : init eat_nan dims flags = .ok h)
    (hlen : input.length = dims.length) :
    h.m_binner.get_bin input = .ok (flat_index (dims.zip input)) := by
  rw [init_get_bin hinit, if_pos hlen]

theorem chain_resolves_mixed_radix_witness :
    hist_xy.m_binner.get_bin [.finite (1/2), .finite (1/2)] = .ok 6 ∧
      hist_xy.m_binner.get_bin [.finite (3/2), .finite (5/2)] = .ok 13 ∧
      hist_xy.m_values.length = 20 := by
  refine ⟨?_, ?_, ?_⟩
  · rw [chain_resolves_mixed_radix 1 axes_xy 0 hist_xy [.finite (1/2), .finite (1/2)]
      init_axes_xy rfl]
    norm_num [axes_xy, flat_index, axis_bin, linear_bin, Double.isFinite, Double.lt, Double.ge,
      Double.le]
  · rw [init_get_bin init_axes_xy]
    norm_num [axes_xy, flat_index, axis_bin, linear_bin, Double.isFinite, Double.lt, Double.ge,
      Double.le]
  · simp [hist_xy, init_result, n_values_axes_xy]

/-! ## The buffer length -/

/-- C10 (the code departs from the claim): the Histogram that `init` constructs on two axes
of 65534 bins each is, after one fill, in a state whose buffer is empty while the product of
the `n_bins + 2` is `2 ^ 32`, and in which the condition
`m_values.size() == total_entries` that `write_to` asserts is false. -/
theorem write_to_assertion_fails :
    ∃ h, Reachable 1 axes_large 0 h ∧ h.m_values.length = 0 ∧
      bins_product axes_large = 4294967296 ∧ write_to_total_entries h = 4294967296 ∧
      write_to_assertion h = false := by
  have hr : Reachable 1 axes_large 0
      (fill (init_result 1 axes_large 0 (unit_axis "y" 65534) [unit_axis "x" 65534])
        [.finite (1/2), .finite (1/2)] (.finite 1)).state :=
    Reachable.filled _ _ _ (Reachable.constructed _ init_axes_large)
  obtain ⟨-, -, -, hd, -, hv, -⟩ := reachable_invariant hr
  have hv0 : (fill (init_result 1 axes_large 0 (unit_axis "y" 65534) [unit_axis "x" 65534])
      [.finite (1/2), .finite (1/2)] (.finite 1)).state.m_values.length = 0 := by
    rw [hv, n_values_axes_large]
    rfl
  have ht : write_to_total_entries (fill (init_result 1 axes_large 0 (unit_axis "y" 65534)
      [unit_axis "x" 65534]) [.finite (1/2), .finite (1/2)] (.finite 1)).state
      = 4294967296 := by
    rw [write_to_total_entries, hd]
    decide
  refine ⟨_, hr, hv0, ?_, ht, ?_⟩
  · norm_num [bins_product, axes_large, unit_axis]
  · rw [write_to_assertion, hv0, ht]
    decide

/-! ## The per-axis mapping -/

theorem Double.le_eq_false_of_lt {a b : Double} (h : a.lt b = true) : b.le a = false := by
  cases a <;> cases b <;> simp_all [Double.le, Double.lt]

theorem axis_bin_inner {n : Int} {low high x : Double} (hf : x.isFinite = true)
    (hl : x.lt low = false) (hh : x.ge high = false) :
    axis_bin n low high x = linear_bin n low high x := by
  unfold axis_bin
  rw [hf, hl, hh]
  rfl

theorem linear_bin_bounds {n : Int} (hn : 1 ≤ n) (low high x : Double) :
    1 ≤ linear_bin n low high x ∧ linear_bin n low high x ≤ n := by
  unfold linear_bin
  split
  · exact ⟨le_max_left _ _, max_le hn (min_le_left _ _)⟩
  · exact ⟨le_max_left _ _, max_le hn (min_le_left _ _)⟩

theorem axis_bin_inner_bounds {n : Int} {low high x : Double} (hn : 1 ≤ n)
    (hf : x.isFinite = true) (hl : x.lt low = false) (hh : x.ge high = false) :
    1 ≤ axis_bin n low high x ∧ axis_bin n low high x ≤ n := by
  rw [axis_bin_inner hf hl hh]
  exact linear_bin_bounds hn low high x

theorem axis_bin_nonneg {n : Int} (hn : 1 ≤ n) (low high x : Double) :
    0 ≤ axis_bin n low high x := by
  by_cases h₁ : (!x.isFinite || x.lt low) = true
  · simp [axis_bin, h₁]
  · by_cases h₂ : x.ge high = true
    · simp only [axis_bin, h₁, h₂, if_true, if_false]
      omega
    · simp only [Bool.or_eq_true, Bool.not_eq_true', not_or, Bool.not_eq_false,
        Bool.not_eq_true] at h₁ h₂
      have h := (axis_bin_inner_bounds hn h₁.1 h₁.2 h₂).1
      omega

theorem axis_bin_mono_finite (n : Int) (hn : 1 ≤ n) (q r l h : ℚ) (hlq : l ≤ q) (hqr : q ≤ r)
    (hrh : r < h) :
    max 1 (min n (1 + ⌊(q - l) / (h - l) * n⌋)) ≤ max 1 (min n (1 + ⌊(r - l) / (h - l) * n⌋)) := by
  have hpos : 0 < h - l := by linarith
  have hn0 : (0 : ℚ) ≤ (n : ℚ) := by exact_mod_cast (by omega : (0 : Int) ≤ n)
  have hle : (q - l) / (h - l) * n ≤ (r - l) / (h - l) * n := by
    apply mul_le_mul_of_nonneg_right _ hn0
    rw [div_le_div_iff_of_pos_right hpos]
    linarith
  exact max_le_max le_rfl (min_le_min le_rfl (add_le_add_left (Int.floor_mono hle) 1))

/-- C9: on an axis with `n_bins >= 1` and `low < high`, the per-axis mapping sends a
coordinate that is not finite or lies below `low` to bin 0, a finite coordinate at or above
`high` to bin `n_bins + 1`, and every other coordinate to a bin in `[1, n_bins]`; on
`[low, high)` the bin is a non-decreasing function of the coordinate.  The cases are read in
the order in which the specification lists them: a coordinate that is not finite belongs to
the first case. -/
theorem axis_bin_spec (n : Int) (low high : Double) (hn : 1 ≤ n) (hlh : low.lt high = true) :
    (∀ x, x.isFinite = false ∨ x.lt low = true → axis_bin n low high x = 0) ∧
      (∀ x, x.isFinite = true → x.ge high = true → axis_bin n low high x = n + 1) ∧
      (∀ x, x.isFinite = true → x.lt low = false → x.ge high = false →
        1 ≤ axis_bin n low high x ∧ axis_bin n low high x ≤ n) ∧
      (∀ x y, low.le x = true → x.lt high = true → low.le y = true → y.lt high = true →
        x.le y = true → axis_bin n low high x ≤ axis_bin n low high y) := by
  refine ⟨?_, ?_, ?_, ?_⟩
  · rintro x (hx | hx) <;> simp [axis_bin, hx]
  · intro x hf hge
    have hl : x.lt low = false := by
      cases x <;> cases low <;> cases high <;>
        simp_all [Double.lt, Double.ge, Double.le, Double.isFinite]
      linarith
    simp [axis_bin, hf, hl, hge]
  · intro x hf hl hh
    exact axis_bin_inner_bounds hn hf hl hh
  · intro x y hlx hxh hly hyh hxy
    by_cases hf : x.isFinite = true
    · have hfy : y.isFinite = true := by
        cases x <;> cases y <;> cases high <;>
          simp_all [Double.lt, Double.le, Double.isFinite]
      rw [axis_bin_inner hf (Double.gt_eq_false_of_le hlx) (Double.le_eq_false_of_lt hxh),
        axis_bin_inner hfy (Double.gt_eq_false_of_le hly) (Double.le_eq_false_of_lt hyh)]
      obtain ⟨q, rfl⟩ : ∃ q, x = .finite q := by
        cases x <;> simp_all [Double.isFinite]
      obtain ⟨r, rfl⟩ : ∃ r, y = .finite r := by
        cases y <;> simp_all [Double.isFinite]
      cases low <;> cases high <;> first | exact le_refl _ | skip
      exact axis_bin_mono_finite n hn _ _ _ _ (by simpa [Double.le] using hlx)
        (by simpa [Double.le] using hxy) (by simpa [Double.lt] using hyh)
    · have h0 : axis_bin n low high x = 0 := by simp [axis_bin, hf]
      rw [h0]
      exact axis_bin_nonneg hn low high y

theorem axis_bin_spec_witness :
    axis_bin 2 (.finite 0) (.finite 2) .nan = 0 ∧
      axis_bin 2 (.finite 0) (.finite 2) (.finite 5) = 2 + 1 ∧
      axis_bin 2 (.finite 0) (.finite 2) (.finite (1/2)) ≤
        axis_bin 2 (.finite 0) (.finite 2) (.finite (3/2)) :=
  have h := axis_bin_spec 2 (.finite 0) (.finite 2) (by norm_num) (by simp [Double.lt])
  ⟨h.1 .nan (Or.inl rfl), h.2.1 (.finite 5) rfl (by norm_num [Double.ge, Double.le]),
    h.2.2.2 (.finite (1/2)) (.finite (3/2)) (by norm_num [Double.le])
      (by norm_num [Double.lt]) (by norm_num [Double.le]) (by norm_num [Double.lt])
      (by norm_num [Double.le])⟩

/-- The chain that `init` builds on a single axis resolves a single coordinate to its
per-axis bin. -/
theorem init_single_axis_get_bin {eat_nan : Nat} {a : Axis} {flags : Nat} {h : Histogram}
    (hinit : init eat_nan [a] flags = .ok h) (x : Double) :
    h.m_binner.get_bin [x] = .ok (axis_bin a.n_bins a.low a.high x) := by
  rw [init_get_bin hinit]
  simp [flat_index]

/-! ## The absorbed-input counter -/

theorem safe_fill_counter (h : Histogram) (input : List Double) (weight : Double) :
    (safe_fill h input weight).state.m_n_nan = h.m_n_nan ∨
      (h.m_eat_nan = true ∧
        (safe_fill h input weight).state.m_n_nan = wrap_int (h.m_n_nan + 1)) := by
  unfold safe_fill
  split
  · split
    · split <;> exact Or.inl rfl
    · exact Or.inl rfl
  · by_cases he : h.m_eat_nan = true
    · exact Or.inr ⟨he, by simp [he]⟩
    · exact Or.inl (by simp [he])
  · exact Or.inl rfl

theorem reachable_counter_zero {eat_nan : Nat} {dims : List Axis} {flags : Nat}
    {h : Histogram} (hr : Reachable eat_nan dims flags h) (hflag : flags &&& eat_nan = 0) :
    h.m_n_nan = 0 := by
  induction hr with
  | constructed h hinit =>
    obtain ⟨-, -, a, earlier, -, rfl⟩ := (init_ok_iff eat_nan dims flags h).1 hinit
    rfl
  | filled h input weight hr ih =>
    obtain ⟨-, -, -, -, he, -⟩ := reachable_invariant hr
    have he' : ¬ h.m_eat_nan = true := by simp [he, hflag]
    rcases safe_fill_counter h input weight with hc | ⟨hc, -⟩
    · rw [fill, hc, ih]
    · exact absurd hc he'

theorem reachable_hist_xy_counter_max : Reachable 1 axes_xy 1 hist_xy_counter_max := by
  have h := reachable_fill_empty (Reachable.constructed _ init_axes_xy_absorbing) 2147483647
  rw [fill_empty_counter 2147483647 (le_refl _)] at h
  exact h

/-- C11 (the claim as stated fails): in the reachable state of an absorbing Histogram in
which the counter holds `INT_MAX`, a fill with a single coordinate on two axes is absorbed
and leaves the counter below its value before the call. -/
theorem counter_decreases_at_int_max :
    Reachable 1 axes_xy 1 hist_xy_counter_max ∧
      (fill hist_xy_counter_max [.finite 0] (.finite 1)).state.m_n_nan <
        hist_xy_counter_max.m_n_nan := by
  refine ⟨reachable_hist_xy_counter_max, ?_⟩
  rw [fill_absorbs reachable_hist_xy_counter_max (by decide) [.finite 0] (.finite 1)
    (by simp [axes_xy])]
  show wrap_int (2147483647 + 1) < 2147483647
  decide

/-- C11 (amended): in every state in which the counter is below `INT_MAX`, a fill leaves the
counter at least as large as before; in every state whatever, the counter changes only if the
absorption flag is set; and in every state reachable from a construction with absorption
disabled the counter is 0, before and after the fill. -/
theorem counter_monotone (h : Histogram) (input : List Double) (weight : Double) :
    (h.m_n_nan < 2147483647 → h.m_n_nan ≤ (fill h input weight).state.m_n_nan) ∧
      ((fill h input weight).state.m_n_nan ≠ h.m_n_nan → h.m_eat_nan = true) ∧
      (∀ eat_nan dims flags, Reachable eat_nan dims flags h → flags &&& eat_nan = 0 →
        h.m_n_nan = 0 ∧ (fill h input weight).state.m_n_nan = 0) := by
  refine ⟨?_, ?_, ?_⟩
  · intro hmax
    rcases safe_fill_counter h input weight with hc | ⟨-, hc⟩
    · rw [fill, hc]
    · rw [fill, hc]
      unfold wrap_int
      omega
  · intro hne
    rcases safe_fill_counter h input weight with hc | ⟨he, -⟩
    · exact absurd hc hne
    · exact he
  · intro eat_nan dims flags hr hflag
    exact ⟨reachable_counter_zero hr hflag,
      reachable_counter_zero (Reachable.filled h input weight hr) hflag⟩

theorem counter_monotone_witness :
    hist_xy_absorbing.m_n_nan ≤
      (fill hist_xy_absorbing [.finite (1/2)] (.finite 2)).state.m_n_nan ∧
      (fill hist_xy [.finite (1/2)] (.finite 2)).state.m_n_nan = 0 :=
  ⟨(counter_monotone hist_xy_absorbing [.finite (1/2)] (.finite 2)).1
      (by simp [hist_xy_absorbing, init_result]),
    ((counter_monotone hist_xy [.finite (1/2)] (.finite 2)).2.2 1 axes_xy 0
      (Reachable.constructed _ init_axes_xy) (by decide)).2⟩

/-! ## An index outside the buffer -/

theorem init_axes_no_slot : init 1 axes_no_slot 1 = .ok hist_no_slot := by
  have hc : check_dimensions axes_no_slot = .ok () := by
    rw [check_dimensions_ok_iff]
    have hx : "x".length = 1 := by decide
    simp [axes_no_slot, unit_axis, Double.gt, Double.lt, hx]
  rw [init_ok_iff]
  refine ⟨hc, ?_, _, _, rfl, rfl⟩
  norm_num [n_values, bins_product, wrap_int, axes_no_slot, unit_axis]

theorem n_values_axes_no_slot : n_values axes_no_slot = 0 := by
  norm_num [n_values, bins_product, wrap_int, axes_no_slot, unit_axis]

theorem get_bin_hist_no_slot :
    hist_no_slot.m_binner.get_bin [.finite (-1)] = .ok 0 := by
  rw [init_get_bin init_axes_no_slot]
  norm_num [axes_no_slot, unit_axis, flat_index, axis_bin, Double.isFinite, Double.lt]

/-- C18: when the binner chain returns an index outside `[0, m_values.size())`, `safe_fill`
(and so `fill`) throws `std::out_of_range`, whatever the absorption flag, and leaves the
Histogram as it was: buffer, counter and all. -/
theorem fill_index_outside_throws (h : Histogram) (input : List Double) (weight : Double)
    (i : Int) (hbin : h.m_binner.get_bin input = .ok i)
    (hout : i < 0 ∨ (h.m_values.length : Int) ≤ i) :
    safe_fill h input weight = ⟨h, some .out_of_range⟩ ∧
      fill h input weight = ⟨h, some .out_of_range⟩ := by
  have hs : safe_fill h input weight = ⟨h, some .out_of_range⟩ := by
    simp only [safe_fill, hbin]
    rw [if_neg (by omega)]
  exact ⟨hs, hs⟩

theorem fill_index_outside_throws_witness :
    fill hist_no_slot [.finite (-1)] (.finite 1) = ⟨hist_no_slot, some .out_of_range⟩ :=
  (fill_index_outside_throws hist_no_slot [.finite (-1)] (.finite 1) 0 get_bin_hist_no_slot
    (Or.inr (by simp [hist_no_slot, init_result, n_values_axes_no_slot]))).2

/-! ## Writing -/

/-- C15: the one-dimensional constructor gives the result of the constructor on the axis
list that holds the single axis named `x` with the same bin count, bounds, units and flags:
the same Histogram or the same exception. -/
theorem one_dimensional_constructor (eat_nan : Nat) (n_bins : Int) (low high : Double)
    (units : String) (flags : Nat) :
    Histogram.of_range eat_nan n_bins low high units flags =
      Histogram.of_axes eat_nan [⟨"x", n_bins, low, high, units⟩] flags := by
  unfold Histogram.of_range Histogram.of_axes
  simp only [List.replicate]
  cases hinit : init eat_nan [⟨"x", n_bins, low, high, units⟩] flags with
  | error e => rfl
  | ok h =>
    obtain ⟨-, -, a, earlier, -, rfl⟩ := (init_ok_iff eat_nan _ flags h).1 hinit
    simp [init_result]

theorem clone_eq : ∀ b : LinBinner, b.clone = b
  | .mk _ _ _ _ none => rfl
  | .mk nm n l h (some s) => by rw [LinBinner.clone, clone_eq s]

theorem copy_eq (h : Histogram) : Histogram.copy h = h := by
  simp [Histogram.copy, clone_eq]

/-! ## Exact addition of doubles -/

theorem Double.plus_def (a b : Double) : a + b = Double.add a b := rfl

theorem Double.plus_comm (a b : Double) : a + b = b + a := by
  cases a <;> cases b <;> simp [Double.plus_def, Double.add, add_comm]

theorem Double.plus_assoc (a b c : Double) : a + b + c = a + (b + c) := by
  cases a <;> cases b <;> cases c <;> simp [Double.plus_def, Double.add, add_assoc]

theorem Double.zero_plus (a : Double) : 0 + a = a := by
  cases a <;> simp [Double.plus_def, Double.add, show (0 : Double) = Double.finite 0 from rfl]

theorem Double.plus_right_comm (a b c : Double) : a + b + c = a + c + b := by
  rw [Double.plus_assoc, Double.plus_comm b c, ← Double.plus_assoc]

/-! ## Lemmas on buffers -/

theorem length_add_at (values : List Double) (i : Nat) (weight : Double) :
    (add_at values i weight).length = values.length := by
  induction values generalizing i with
  | nil => rfl
  | cons v values ih =>
    cases i with
    | zero => rfl
    | succ i => simp [add_at, ih]

theorem set_eq_add_at (values : List Double) (i : Nat) (v weight : Double)
    (hv : values[i]? = some v) : values.set i (v + weight) = add_at values i weight := by
  induction values generalizing i with
  | nil => simp at hv
  | cons u values ih =>
    cases i with
    | zero =>
      simp only [List.getElem?_cons_zero, Option.some.injEq] at hv
      simp [add_at, hv]
    | succ i =>
      simp only [List.getElem?_cons_succ] at hv
      simp [add_at, ih i hv]

theorem add_at_comm (values : List Double) (i j : Nat) (a b : Double) :
    add_at (add_at values i a) j b = add_at (add_at values j b) i a := by
  induction values generalizing i j with
  | nil => rfl
  | cons v values ih =>
    cases i <;> cases j <;> simp [add_at, ih, Double.plus_right_comm]

theorem fill_ok_inside {h : Histogram} {input : List Double} {bin : Int} (weight : Double)
    (hbin : h.m_binner.get_bin input = .ok bin)
    (hin : 0 ≤ bin ∧ bin < h.m_values.length) :
    (fill h input weight).state =
      { h with m_values := add_at h.m_values bin.toNat weight } := by
  have hi : bin.toNat < h.m_values.length := by omega
  have hget : h.m_values[bin.toNat]? = some h.m_values[bin.toNat] :=
    List.getElem?_eq_getElem hi
  simp only [fill, safe_fill, hbin, hget]
  rw [if_pos hin, set_eq_add_at _ _ _ _ hget]

theorem fill_ok_outside {h : Histogram} {input : List Double} {bin : Int} (weight : Double)
    (hbin : h.m_binner.get_bin input = .ok bin)
    (hout : ¬ (0 ≤ bin ∧ bin < h.m_values.length)) :
    (fill h input weight).state = h := by
  simp only [fill, safe_fill, hbin]
  rw [if_neg hout]

theorem fill_of_resolves {h : Histogram} {input : List Double} (weight : Double)
    (hres : resolves h input = true) :
    (fill h input weight).state = add_to_slot h (landing_slot h input) weight := by
  cases hbin : h.m_binner.get_bin input with
  | ok bin =>
    by_cases hin : 0 ≤ bin ∧ bin < h.m_values.length
    · rw [fill_ok_inside weight hbin hin]
      simp [landing_slot, hbin, hin, add_to_slot]
    · rw [fill_ok_outside weight hbin hin]
      simp [landing_slot, hbin, hin, add_to_slot]
  | error e => simp [resolves, hbin] at hres

theorem landing_slot_fill (h : Histogram) (c : List Double) (w : Double)
    (input : List Double) :
    landing_slot (fill h c w).state input = landing_slot h input := by
  obtain ⟨fb, -, -, fv⟩ := safe_fill_frame h c w
  unfold landing_slot
  rw [fill, fb, fv]

theorem resolves_fill (h : Histogram) (c : List Double) (w : Double) (input : List Double) :
    resolves (fill h c w).state input = resolves h input := by
  obtain ⟨fb, -, -, -⟩ := safe_fill_frame h c w
  unfold resolves
  rw [fill, fb]

theorem add_to_slot_comm (h : Histogram) (s₁ s₂ : Option Nat) (w₁ w₂ : Double) :
    add_to_slot (add_to_slot h s₁ w₁) s₂ w₂ = add_to_slot (add_to_slot h s₂ w₂) s₁ w₁ := by
  cases s₁ <;> cases s₂ <;> simp [add_to_slot, add_at_comm]

theorem fill_fill_comm (h : Histogram) (c₁ c₂ : List Double) (w₁ w₂ : Double)
    (h₁ : resolves h c₁ = true) (h₂ : resolves h c₂ = true) :
    (fill (fill h c₁ w₁).state c₂ w₂).state = (fill (fill h c₂ w₂).state c₁ w₁).state := by
  have r₁ : resolves (fill h c₂ w₂).state c₁ = true := by rw [resolves_fill, h₁]
  have r₂ : resolves (fill h c₁ w₁).state c₂ = true := by rw [resolves_fill, h₂]
  rw [fill_of_resolves w₂ r₂, fill_of_resolves w₁ r₁, landing_slot_fill, landing_slot_fill,
    fill_of_resolves w₁ h₁, fill_of_resolves w₂ h₂, add_to_slot_comm]

theorem fill_all_perm {l₁ l₂ : List (List Double × Double)} (hp : l₁.Perm l₂) :
    ∀ h : Histogram, (∀ f ∈ l₁, resolves h f.1 = true) → fill_all h l₁ = fill_all h l₂ := by
  induction hp with
  | nil => intro h _; rfl
  | cons f _ ih =>
    intro h hall
    simp only [fill_all]
    apply ih
    intro g hg
    rw [resolves_fill]
    exact hall g (List.mem_cons_of_mem _ hg)
  | swap a b l =>
    intro h hall
    simp only [fill_all]
    rw [fill_fill_comm h b.1 a.1 b.2 a.2 (hall b (by simp)) (hall a (by simp))]
  | trans hp₁ _ ih₁ ih₂ =>
    intro h hall
    rw [ih₁ h hall]
    exact ih₂ h (fun f hf => hall f (hp₁.mem_iff.2 hf))

/-- C13: in every state, two fills whose coordinates the binner chain resolves to flat
indices give the same Histogram in either order, buffer and counter alike; and the Histogram
after a sequence of such fills is the same for every permutation of the sequence. -/
theorem fills_commute (h : Histogram) :
    (∀ (c₁ c₂ : List Double) (w₁ w₂ : Double) (i₁ i₂ : Int),
      h.m_binner.get_bin c₁ = .ok i₁ → h.m_binner.get_bin c₂ = .ok i₂ →
        (fill (fill h c₁ w₁).state c₂ w₂).state = (fill (fill h c₂ w₂).state c₁ w₁).state) ∧
      (∀ l₁ l₂ : List (List Double × Double), l₁.Perm l₂ →
        (∀ f ∈ l₁, ∃ i, h.m_binner.get_bin f.1 = .ok i) → fill_all h l₁ = fill_all h l₂) := by
  constructor
  · intro c₁ c₂ w₁ w₂ i₁ i₂ h₁ h₂
    exact fill_fill_comm h c₁ c₂ w₁ w₂ (by simp [resolves, h₁]) (by simp [resolves, h₂])
  · intro l₁ l₂ hp hall
    apply fill_all_perm hp h
    intro f hf
    obtain ⟨i, hi⟩ := hall f hf
    simp [resolves, hi]

theorem get_bin_hist_xy_low :
    hist_xy.m_binner.get_bin [.finite (1/2), .finite (1/2)] = .ok 6 := by
  rw [init_get_bin init_axes_xy]
  norm_num [axes_xy, flat_index, axis_bin, linear_bin, Double.isFinite, Double.lt, Double.ge,
    Double.le]

theorem get_bin_hist_xy_high :
    hist_xy.m_binner.get_bin [.finite (3/2), .finite (5/2)] = .ok 13 := by
  rw [init_get_bin init_axes_xy]
  norm_num [axes_xy, flat_index, axis_bin, linear_bin, Double.isFinite, Double.lt, Double.ge,
    Double.le]

theorem fills_commute_witness :
    (fill (fill hist_xy [.finite (1/2), .finite (1/2)] (.finite 2)).state
        [.finite (3/2), .finite (5/2)] (.finite 3)).state =
      (fill (fill hist_xy [.finite (3/2), .finite (5/2)] (.finite 3)).state
        [.finite (1/2), .finite (1/2)] (.finite 2)).state :=
  (fills_commute hist_xy).1 _ _ _ _ 6 13 get_bin_hist_xy_low get_bin_hist_xy_high

theorem axis_bin_range {n : Int} (hn : 0 ≤ n) (low high x : Double) :
    0 ≤ axis_bin n low high x ∧ axis_bin n low high x ≤ n + 1 := by
  have hl : 0 ≤ linear_bin n low high x ∧ linear_bin n low high x ≤ n + 1 := by
    unfold linear_bin
    split
    · exact ⟨le_trans (by norm_num) (le_max_left _ _),
        max_le (by omega) (le_trans (min_le_left _ _) (by omega))⟩
    · exact ⟨le_trans (by norm_num) (le_max_left _ _),
        max_le (by omega) (le_trans (min_le_left _ _) (by omega))⟩
  unfold axis_bin
  split
  · omega
  · split
    · omega
    · exact hl

theorem foldl_index_range (p : List (Axis × Double)) :
    ∀ index bound : Int, 0 ≤ index → index < bound → (∀ q ∈ p, 0 ≤ q.1.n_bins) →
      0 ≤ p.foldl (fun index q => index * (q.1.n_bins + 2) + pair_bin q) index ∧
        p.foldl (fun index q => index * (q.1.n_bins + 2) + pair_bin q) index <
          bound * (p.map (fun q => q.1.n_bins + 2)).prod := by
  induction p with
  | nil =>
    intro index bound h0 hb _
    simpa using ⟨h0, hb⟩
  | cons q rest ih =>
    intro index bound h0 hb hall
    have hq : 0 ≤ q.1.n_bins := hall q (by simp)
    obtain ⟨b0, b1⟩ := axis_bin_range hq q.1.low q.1.high q.2
    have hstep0 : 0 ≤ index * (q.1.n_bins + 2) + pair_bin q := by
      unfold pair_bin
      nlinarith
    have hstep1 : index * (q.1.n_bins + 2) + pair_bin q < bound * (q.1.n_bins + 2) := by
      unfold pair_bin
      nlinarith
    have h := ih _ _ hstep0 hstep1 (fun g hg => hall g (List.mem_cons_of_mem _ hg))
    simpa [mul_assoc] using h

theorem flat_index_range (dims : List Axis) (input : List Double)
    (hlen : input.length = dims.length) (hn : ∀ a ∈ dims, 0 ≤ a.n_bins) :
    0 ≤ flat_index (dims.zip input) ∧ flat_index (dims.zip input) < bins_product dims := by
  have hall : ∀ q ∈ dims.zip input, 0 ≤ q.1.n_bins := by
    intro q hq
    exact hn q.1 (List.of_mem_zip hq).1
  have hmap : (dims.zip input).map (fun q => q.1.n_bins + 2) =
      dims.map (fun a => a.n_bins + 2) := by
    have h1 : (dims.zip input).map Prod.fst = dims := List.map_fst_zip _ _ (by omega)
    conv_rhs => rw [← h1]
    rw [List.map_map]
    rfl
  have h := foldl_index_range (dims.zip input) 0 1 (le_refl _) (by norm_num) hall
  rw [flat_index_eq_foldl, bins_product, ← hmap]
  simpa using h

/-- On axes with `n_bins >= 0` whose product of the `n_bins + 2` fits an `int`, a fill with
as many coordinates as there are axes never throws. -/
theorem fill_returns_when_product_fits {eat_nan : Nat} {dims : List Axis} {flags : Nat}
    {h : Histogram} (hr : Reachable eat_nan dims flags h) (hn : ∀ a ∈ dims, 0 ≤ a.n_bins)
    (hfit : bins_product dims < 2147483648) (input : List Double) (weight : Double)
    (hlen : input.length = dims.length) :
    (fill h input weight).raised = none := by
  obtain ⟨i0, i1⟩ := flat_index_range dims input hlen hn
  obtain ⟨-, -, -, -, -, hv, -⟩ := reachable_invariant hr
  have hnv : n_values dims = bins_product dims := wrap_int_of_range (by omega) hfit
  have hbin := reachable_get_bin hr input
  rw [if_pos hlen] at hbin
  have hin : 0 ≤ flat_index (dims.zip input) ∧
      flat_index (dims.zip input) < h.m_values.length := by
    rw [hv, hnv]
    omega
  have hi : (flat_index (dims.zip input)).toNat < h.m_values.length := by omega
  simp only [fill, safe_fill, hbin, List.getElem?_eq_getElem hi]
  rw [if_pos hin]

theorem get_bin_hist_large :
    hist_large.m_binner.get_bin [.finite (-1), .finite (-1)] = .ok 0 := by
  rw [init_get_bin (show init 1 axes_large 0 = .ok hist_large from init_axes_large)]
  norm_num [axes_large, unit_axis, flat_index, axis_bin, Double.isFinite, Double.lt]

/-- C17 (the code departs from the claim): the two axes of `axes_large` have 65534 bins each
and the coordinate tuple has length 2; the chain resolves it to the flat index 0, the buffer
that `init` allocated is empty, and the fill throws `std::out_of_range`. -/
theorem fill_throws_on_large_axes :
    (∀ a ∈ axes_large, 0 ≤ a.n_bins) ∧
      init 1 axes_large 0 = .ok hist_large ∧
      hist_large.m_binner.get_bin [.finite (-1), .finite (-1)] = .ok 0 ∧
      hist_large.m_values.length = 0 ∧
      fill hist_large [.finite (-1), .finite (-1)] (.finite 1) =
        ⟨hist_large, some .out_of_range⟩ := by
  have hlen : hist_large.m_values.length = 0 := by
    simp [hist_large, init_result, n_values_axes_large]
  have hout : ¬ ((0 : Int) ≤ 0 ∧ (0 : Int) < hist_large.m_values.length) := by
    rw [hlen]
    decide
  refine ⟨by simp [axes_large, unit_axis], init_axes_large, get_bin_hist_large, hlen, ?_⟩
  simp only [fill, safe_fill, get_bin_hist_large]
  rw [if_neg hout]

/-! ## Copies in memory -/

theorem load_of_parts {m : Memory} {this : Nat} {o : HistogramObject} {b : LinBinner}
    {v : List Double} (ho : m.objects[this]? = some o) (hb : m.binners[o.m_binner]? = some b)
    (hv : m.vectors[o.m_values]? = some v) :
    m.load this = some { m_binner := b, m_dimsensions := o.m_dimsensions, m_values := v,
                         m_n_nan := o.m_n_nan, m_eat_nan := o.m_eat_nan } := by
  simp only [Memory.load, ho, hb, hv]

theorem parts_of_load {m : Memory} {this : Nat} {h : Histogram}
    (hload : m.load this = some h) :
    ∃ o, m.objects[this]? = some o ∧ m.binners[o.m_binner]? = some h.m_binner ∧
      m.vectors[o.m_values]? = some h.m_values ∧ o.m_dimsensions = h.m_dimsensions ∧
      o.m_n_nan = h.m_n_nan ∧ o.m_eat_nan = h.m_eat_nan := by
  unfold Memory.load at hload
  cases ho : m.objects[this]? with
  | none => simp [ho] at hload
  | some o =>
    cases hb : m.binners[o.m_binner]? with
    | none => simp [ho, hb] at hload
    | some b =>
      cases hv : m.vectors[o.m_values]? with
      | none => simp [ho, hb, hv] at hload
      | some v =>
        simp only [ho, hb, hv, Option.some.injEq] at hload
        subst hload
        exact ⟨o, rfl, hb, hv, rfl, rfl, rfl⟩

theorem lt_length_of_getElem? {α : Type} {l : List α} {i : Nat} {a : α}
    (h : l[i]? = some a) : i < l.length := by
  obtain ⟨hi, -⟩ := List.getElem?_eq_some.1 h
  exact hi

theorem load_place (m : Memory) (h : Histogram) :
    (m.place h).1.load (m.place h).2 = some h := by
  simp only [Memory.load, Memory.place, List.getElem?_concat_length]

/-- A fill through the object at `this` leaves every other object whose vector storage is not
that of `this` as it was. -/
theorem memory_fill_frame {m m₂ : Memory} {this other : Nat} {input : List Double}
    {weight : Double} {raised : Option Exn} {o p : HistogramObject}
    (hfill : m.fill this input weight = some (m₂, raised))
    (ho : m.objects[this]? = some o) (hp : m.objects[other]? = some p)
    (hne : other ≠ this) (hstorage : p.m_values ≠ o.m_values) :
    m₂.load other = m.load other := by
  unfold Memory.fill at hfill
  rw [ho] at hfill
  cases hl : m.load this with
  | none => simp [hl] at hfill
  | some h =>
    simp only [hl, Option.some.injEq, Prod.mk.injEq] at hfill
    obtain ⟨rfl, -⟩ := hfill
    unfold Memory.load
    simp only [List.getElem?_set_ne (Ne.symm hne), hp, List.getElem?_set_ne (Ne.symm hstorage)]

/-- A fill through the object at `this` leaves that object with the state that `safe_fill`
computes from the Histogram it held. -/
theorem memory_fill_self {m : Memory} {this : Nat} {h : Histogram} (input : List Double)
    (weight : Double) (hload : m.load this = some h) :
    ∃ m₂, m.fill this input weight = some (m₂, (fill h input weight).raised) ∧
      m₂.load this = some (fill h input weight).state := by
  obtain ⟨o, ho, hb, hv, hd, hn, he⟩ := parts_of_load hload
  obtain ⟨fb, fd, fe, -⟩ := safe_fill_frame h input weight
  have hfill : m.fill this input weight =
      some ({ objects := m.objects.set this
                { o with m_n_nan := (safe_fill h input weight).state.m_n_nan }
              binners := m.binners
              vectors := m.vectors.set o.m_values (safe_fill h input weight).state.m_values },
            (safe_fill h input weight).raised) := by
    simp only [Memory.fill, ho, hload]
  refine ⟨_, hfill, ?_⟩
  have ho' : (m.objects.set this
      { o with m_n_nan := (safe_fill h input weight).state.m_n_nan })[this]? =
      some { o with m_n_nan := (safe_fill h input weight).state.m_n_nan } :=
    List.getElem?_set_self (lt_length_of_getElem? ho)
  have hv' : (m.vectors.set o.m_values (safe_fill h input weight).state.m_values)[o.m_values]? =
      some (safe_fill h input weight).state.m_values :=
    List.getElem?_set_self (lt_length_of_getElem? hv)
  simp only [Memory.load, ho', hb, hv', fill]
  congr 1
  cases hs : (safe_fill h input weight).state with
  | mk b d v n e =>
    simp only [hs] at fb fd fe
    simp [fb, fd, fe, hd, he]

theorem copy_construct_eq {m : Memory} {old : Nat} {h : Histogram}
    (hload : m.load old = some h) :
    ∃ o, m.objects[old]? = some o ∧ o.m_values < m.vectors.length ∧
      m.copy_construct old =
        some ({ objects := m.objects ++
                  [{ m_binner := m.binners.length, m_dimsensions := o.m_dimsensions,
                     m_values := m.vectors.length, m_n_nan := o.m_n_nan,
                     m_eat_nan := o.m_eat_nan }]
                binners := m.binners ++ [h.m_binner.clone]
                vectors := m.vectors ++ [h.m_values] }, m.objects.length) := by
  obtain ⟨o, ho, hb, hv, -⟩ := parts_of_load hload
  exact ⟨o, ho, lt_length_of_getElem? hv, by simp only [Memory.copy_construct, ho, hb, hv]⟩

/-- C16: for a Histogram object in memory, the copy constructor makes a new object that holds
the same axes, buffer, counter and absorption flag (and a clone of the chain) and leaves the
original as it was; a fill on the copy then changes the copy as `fill` says and leaves the
original with the Histogram it held, buffer and counter included. -/
theorem copy_is_independent (m : Memory) (old : Nat) (h : Histogram) (input : List Double)
    (weight : Double) (hload : m.load old = some h) :
    ∃ m₁ copied, m.copy_construct old = some (m₁, copied) ∧
      m₁.load copied = some (Histogram.copy h) ∧
      (Histogram.copy h).m_dimsensions = h.m_dimsensions ∧
      (Histogram.copy h).m_values = h.m_values ∧
      (Histogram.copy h).m_n_nan = h.m_n_nan ∧
      (Histogram.copy h).m_eat_nan = h.m_eat_nan ∧
      m₁.load old = some h ∧
      ∃ m₂, m₁.fill copied input weight =
          some (m₂, (fill (Histogram.copy h) input weight).raised) ∧
        m₂.load copied = some (fill (Histogram.copy h) input weight).state ∧
        m₂.load old = some h := by
  obtain ⟨o, ho, hov, hcopy⟩ := copy_construct_eq hload
  obtain ⟨o', ho', hb, hv, hd, hn, he⟩ := parts_of_load hload
  have hoo : o' = o := Option.some.inj (ho'.symm.trans ho)
  subst hoo
  have hold : old < m.objects.length := lt_length_of_getElem? ho
  have hob : o'.m_binner < m.binners.length := lt_length_of_getElem? hb
  refine ⟨_, _, hcopy, ?_, rfl, rfl, rfl, rfl, ?_, ?_⟩
  · rw [load_of_parts (List.getElem?_concat_length _ _) (List.getElem?_concat_length _ _)
      (List.getElem?_concat_length _ _)]
    simp [Histogram.copy, hd, hn, he]
  · rw [load_of_parts ((List.getElem?_append_left hold).trans ho)
      ((List.getElem?_append_left hob).trans hb) ((List.getElem?_append_left hov).trans hv)]
    cases h
    simp_all
  · have hcl : Memory.load
        { objects := m.objects ++
            [{ m_binner := m.binners.length, m_dimsensions := o'.m_dimsensions,
               m_values := m.vectors.length, m_n_nan := o'.m_n_nan,
               m_eat_nan := o'.m_eat_nan }]
          binners := m.binners ++ [h.m_binner.clone]
          vectors := m.vectors ++ [h.m_values] } m.objects.length =
        some (Histogram.copy h) := by
      rw [load_of_parts (List.getElem?_concat_length _ _) (List.getElem?_concat_length _ _)
        (List.getElem?_concat_length _ _)]
      simp [Histogram.copy, hd, hn, he]
    obtain ⟨m₂, hfill, hself⟩ := memory_fill_self input weight hcl
    refine ⟨m₂, hfill, hself, ?_⟩
    rw [memory_fill_frame hfill (List.getElem?_concat_length _ _)
      ((List.getElem?_append_left hold).trans ho) (by omega) (by simpa using Nat.ne_of_lt hov)]
    rw [load_of_parts ((List.getElem?_append_left hold).trans ho)
      ((List.getElem?_append_left hob).trans hb) ((List.getElem?_append_left hov).trans hv)]
    cases h
    simp_all

theorem copy_is_independent_witness :
    ∃ m₁ copied, (Memory.empty.place hist_xy).1.copy_construct 0 = some (m₁, copied) ∧
      m₁.load copied = some (Histogram.copy hist_xy) ∧
      ∃ m₂, m₁.fill copied [.finite (1/2), .finite (1/2)] (.finite 2) =
          some (m₂, (fill (Histogram.copy hist_xy) [.finite (1/2), .finite (1/2)]
            (.finite 2)).raised) ∧
        m₂.load 0 = some hist_xy := by
  obtain ⟨m₁, copied, h₁, h₂, -, -, -, -, -, m₂, h₃, -, h₄⟩ :=
    copy_is_independent (Memory.empty.place hist_xy).1 0 hist_xy
      [.finite (1/2), .finite (1/2)] (.finite 2) (load_place Memory.empty hist_xy)
  exact ⟨m₁, copied, h₁, h₂, m₂, h₃, h₄⟩

/-- In the memory model two objects that share their vector storage are not independent: in
`memory_with_alias` a fill through the second object changes the buffer that the first
object holds. -/
theorem fill_through_alias_changes_other :
    (memory_with_alias.load 0).map (fun h => h.m_values) = some [0, 0, 0] ∧
      ∃ m₂, memory_with_alias.fill 1 [.finite (-1)] (.finite 1) = some (m₂, none) ∧
        (m₂.load 0).map (fun h => h.m_values) = some [.finite 1, 0, 0] := by
  have hbin : (new_LinBinner (unit_axis "x" 1)).get_bin [.finite (-1)] = .ok 0 := by
    norm_num [new_LinBinner, unit_axis, LinBinner.get_bin, LinBinner.get_bin_rev, axis_bin,
      Double.isFinite, Double.lt]
  have hload : memory_with_alias.load 1 =
      some { m_binner := new_LinBinner (unit_axis "x" 1), m_dimsensions := [unit_axis "x" 1],
             m_values := [0, 0, 0], m_n_nan := 0, m_eat_nan := false } := rfl
  have hsafe : safe_fill
      { m_binner := new_LinBinner (unit_axis "x" 1), m_dimsensions := [unit_axis "x" 1],
        m_values := [0, 0, 0], m_n_nan := 0, m_eat_nan := false } [.finite (-1)] (.finite 1) =
      ⟨{ m_binner := new_LinBinner (unit_axis "x" 1), m_dimsensions := [unit_axis "x" 1],
         m_values := [.finite 1, 0, 0], m_n_nan := 0, m_eat_nan := false }, none⟩ := by
    simp only [safe_fill, hbin]
    rw [if_pos (by decide)]
    simp only [Int.toNat_zero, List.getElem?_cons_zero, List.set_cons_zero]
    rw [Double.zero_plus]
  refine ⟨rfl, { memory_with_alias with vectors := [[.finite 1, 0, 0]] }, ?_, rfl⟩
  have ho : memory_with_alias.objects[1]? =
      some { m_binner := 0, m_dimsensions := [unit_axis "x" 1], m_values := 0,
             m_n_nan := 0, m_eat_nan := false } := rfl
  simp only [Memory.fill, ho, hload, hsafe]
  rfl

end NDHist
